import Mathlib

/-!
# webaudio-exercises: feature extraction, normalisation, matching, queue and engines

A shallow embedding of `project/src/index.js`, `exercises/src/scheduling.js` and
`exercises/src/granular-synthesis.js`.

Conventions of the embedding:

* finite JavaScript numbers are idealised as rationals (`ℚ`); rounding of
  IEEE doubles and the sign of zero are not tracked;
* the non-finite results a numeric operation can produce (`NaN`, `±Infinity`)
  are explicit constructors of `JsNum`;
* sample indices, block sizes and hop sizes are natural numbers;
* `undefined` / `null` are `none` of an `Option`;
* loops that the source does not bound run on explicit fuel and return
  `none` when the fuel is used up.
-/

namespace WebAudio

/-! ## JavaScript numbers -/

/-- Outcome of a JavaScript numeric operation on idealised finite values. -/
inductive JsNum where
  | num (q : ℚ)
  | posInf
  | negInf
  | nan
  deriving DecidableEq

/-- The JavaScript division `x / y` of two finite numbers: a zero divisor gives
`NaN` for `0 / 0` and an infinity otherwise (the zero divisor is taken as `+0`). -/
def jsDiv (x y : ℚ) : JsNum :=
  if y = 0 then
    if x = 0 then JsNum.nan else if 0 < x then JsNum.posInf else JsNum.negInf
  else JsNum.num (x / y)

/-! ## Feature extractor: `getTimes` (index.js 45-56) -/

/-- The `for (let start = 0; start < dataLen; start += hopSize)` loop of
`getTimes`, entered with the current `start` and the `times` pushed so far.
Each test of the loop condition consumes one unit of fuel. -/
def getTimesLoop (dataLen : ℕ) (sampleRate : ℚ) (blockSize hopSize : ℕ) :
    ℕ → ℕ → List ℚ → Option (List ℚ)
  | 0, _, _ => none
  | fuel + 1, start, times =>
    if start < dataLen then
      let «end» := start + blockSize
      if «end» ≤ dataLen then
        let time := (start : ℚ) / sampleRate
        getTimesLoop dataLen sampleRate blockSize hopSize fuel (start + hopSize) (times ++ [time])
      else
        getTimesLoop dataLen sampleRate blockSize hopSize fuel (start + hopSize) times
    else some times

/-- `getTimes(channelData, sampleRate, blockSize, hopSize)`; only the length of
`channelData` is read. -/
def getTimes (fuel : ℕ) (channelData : List ℚ) (sampleRate : ℚ) (blockSize hopSize : ℕ) :
    Option (List ℚ) :=
  let times : List ℚ := []
  let dataLen := channelData.length
  getTimesLoop dataLen sampleRate blockSize hopSize fuel 0 times

/-! ## Feature extractor: `zeroCrossing` (index.js 92-119) -/

/-- The product `x * r` of a numeric result and a finite number. -/
def jsMul : JsNum → ℚ → JsNum
  | JsNum.num q, r => JsNum.num (q * r)
  | JsNum.nan, _ => JsNum.nan
  | JsNum.posInf, r => if r = 0 then JsNum.nan else if 0 < r then JsNum.posInf else JsNum.negInf
  | JsNum.negInf, r => if r = 0 then JsNum.nan else if 0 < r then JsNum.negInf else JsNum.posInf

/-- `arr.slice(start, end)` for indices within `0 .. arr.length`. -/
def slice (arr : List ℚ) (start «end» : ℕ) : List ℚ :=
  (arr.take «end»).drop start

/-- The test `v > 0` on an array element, `none` being `undefined` (the test
is false on it). -/
def gtZero : Option ℚ → Bool
  | some v => decide (0 < v)
  | none => false

/-- The test `v < 0` on an array element, `none` being `undefined`. -/
def ltZero : Option ℚ → Bool
  | some v => decide (v < 0)
  | none => false

/-- Body of the inner loop of `zeroCrossing` at index `i`, on the pair
`(block_zc_cnt, was_positive)`. -/
def zeroCrossingStep (block : List ℚ) (state : ℕ × Bool) (i : ℕ) : ℕ × Bool :=
  if ltZero (block.get? i) && state.2 then (state.1 + 1, false)
  else if gtZero (block.get? i) && !state.2 then (state.1 + 1, true)
  else state

/-- The counter `block_zc_cnt` after the inner loop
`for (let i = 1; i < blockSize; i += 1)`, started with
`was_positive = (block[0] > 0)`. -/
def blockZeroCrossings (block : List ℚ) (blockSize : ℕ) : ℕ :=
  ((List.range' 1 (blockSize - 1)).foldl (zeroCrossingStep block)
    (0, gtZero (block.get? 0))).1

/-- The value `block_zcr` pushed for the block starting at `start`. -/
def blockZcr (channelData : List ℚ) (sampleRate : ℚ) (blockSize start : ℕ) : JsNum :=
  let «end» := start + blockSize
  let block := slice channelData start «end»
  let block_zc_cnt := blockZeroCrossings block blockSize
  jsMul (jsDiv (block_zc_cnt : ℚ) ((blockSize : ℚ) - 1)) sampleRate

/-- The outer loop `for (let start = 0; start < dataLen; start += hopSize)` of
`zeroCrossing`, entered with the current `start` and the `zcr_array` pushed
so far. Each test of the loop condition consumes one unit of fuel. -/
def zeroCrossingLoop (channelData : List ℚ) (sampleRate : ℚ) (blockSize hopSize : ℕ) :
    ℕ → ℕ → List JsNum → Option (List JsNum)
  | 0, _, _ => none
  | fuel + 1, start, zcr_array =>
    if start < channelData.length then
      let «end» := start + blockSize
      if «end» ≤ channelData.length then
        let block_zcr := blockZcr channelData sampleRate blockSize start
        zeroCrossingLoop channelData sampleRate blockSize hopSize fuel (start + hopSize)
          (zcr_array ++ [block_zcr])
      else
        zeroCrossingLoop channelData sampleRate blockSize hopSize fuel (start + hopSize)
          zcr_array
    else some zcr_array

/-- `zeroCrossing(channelData, sampleRate, blockSize, hopSize)`. -/
def zeroCrossing (fuel : ℕ) (channelData : List ℚ) (sampleRate : ℚ)
    (blockSize hopSize : ℕ) : Option (List JsNum) :=
  let zcr_array : List JsNum := []
  zeroCrossingLoop channelData sampleRate blockSize hopSize fuel 0 zcr_array

/-! ## Normalizer: `normalize` (index.js 124-133) -/

/-- `normalize(data)`. For an empty array `Math.max()` / `Math.min()` are
`-Infinity` / `Infinity`, but `map` never calls its callback, so the result
is the empty array; otherwise `max` and `min` are the finite extrema. -/
def normalize (data : List ℚ) : List JsNum :=
  match data with
  | [] => []
  | d :: ds =>
    let max := ds.foldl Max.max d
    let min := ds.foldl Min.min d
    let result := data.map (fun x => x - min)
    result.map (fun x => jsDiv x max)

/-! ## Position matcher: `findStartTimeFromGuiPosition` (index.js 139-154) -/

/-- The object `globals.guiPosition`; `none` is the `null` written while no
pointer is active. -/
structure GuiPosition where
  x : Option ℚ
  y : Option ℚ

/-- The object `data`: block start times, descriptors and their normalised
versions (finite entries). -/
structure Data where
  times : List ℚ
  rms : List ℚ
  zeroCrossing : List ℚ
  normX : List ℚ
  normY : List ℚ

/-- Numeric value of an operand that is a number or `null` (`null` is `0`). -/
def toNumber : Option ℚ → ℚ
  | some q => q
  | none => 0

/-- `Array.prototype.toString` on an array of numbers: the elements' strings
joined by commas. `numToString` is the engine's `Number::toString`. -/
def arrayToString (numToString : ℚ → String) (arr : List ℚ) : String :=
  String.intercalate "," (arr.map numToString)

/-- The expression `n + arr` for a number `n` and an array `arr`: the array is
not a number, so both operands become strings and are concatenated. -/
def addNumberArray (numToString : ℚ → String) (n : ℚ) (arr : List ℚ) : String :=
  numToString n ++ arrayToString numToString arr

/-- Conversion of a string to a number. No numeric literal contains a comma,
so such a string is `NaN`; on other strings `parse` is the engine's
`StringToNumber`. -/
def stringToNumber (parse : String → JsNum) (s : String) : JsNum :=
  if ',' ∈ s.data then JsNum.nan else parse s

/-- `Math.sqrt` on a number; `sqrt` is the engine's square root on
non-negative finite values. -/
def mathSqrt (sqrt : ℚ → ℚ) : JsNum → JsNum
  | JsNum.num q => if q < 0 then JsNum.nan else JsNum.num (sqrt q)
  | JsNum.posInf => JsNum.posInf
  | JsNum.negInf => JsNum.nan
  | JsNum.nan => JsNum.nan

/-- The comparison `a < b` on numbers; false as soon as one side is `NaN`. -/
def jsLt : JsNum → JsNum → Bool
  | JsNum.nan, _ => false
  | _, JsNum.nan => false
  | JsNum.num a, JsNum.num b => decide (a < b)
  | JsNum.num _, JsNum.posInf => true
  | JsNum.num _, JsNum.negInf => false
  | JsNum.posInf, _ => false
  | JsNum.negInf, JsNum.negInf => false
  | JsNum.negInf, _ => true

/-- One step of `Math.min`: `NaN` is contagious, otherwise the smaller value. -/
def min2 (a b : JsNum) : JsNum :=
  match a, b with
  | JsNum.nan, _ => JsNum.nan
  | _, JsNum.nan => JsNum.nan
  | a, b => if jsLt b a then b else a

/-- `Math.min(...xs)`: `Infinity` for no argument, `NaN` if any argument is. -/
def mathMin (xs : List JsNum) : JsNum :=
  xs.foldl min2 JsNum.posInf

/-- Strict equality `a === b` on numbers: `NaN` equals nothing. -/
def strictEq : JsNum → JsNum → Bool
  | JsNum.nan, _ => false
  | _, JsNum.nan => false
  | a, b => decide (a = b)

/-- Search of `Array.prototype.indexOf` from index `i` on; `none` is `-1`. -/
def indexOfFrom (v : JsNum) : List JsNum → ℕ → Option ℕ
  | [], _ => none
  | d :: ds, i => if strictEq d v then some i else indexOfFrom v ds (i + 1)

/-- `xs.indexOf(v)`. -/
def indexOf (xs : List JsNum) (v : JsNum) : Option ℕ :=
  indexOfFrom v xs 0

/-- `arr[idx]` where `idx` is the result of `indexOf`: `undefined` for `-1`
and for an index past the end. -/
def elementAt (arr : List ℚ) : Option ℕ → Option ℚ
  | none => none
  | some i => arr.get? i

/-- `findStartTimeFromGuiPosition(guiPosition, data)`. Line 148 adds the
number `dist_x_squared[i]` to the whole array `dist_y_squared`. The result
is `none` when the function returns `undefined`. -/
def findStartTimeFromGuiPosition (numToString : ℚ → String) (parse : String → JsNum)
    (sqrt : ℚ → ℚ) (guiPosition : GuiPosition) (data : Data) : Option ℚ :=
  let dist_x := data.normX.map (fun x => x - toNumber guiPosition.x)
  let dist_y := data.normY.map (fun y => y - toNumber guiPosition.y)
  let dist_x_squared := dist_x.map (fun x => x ^ 2)
  let dist_y_squared := dist_y.map (fun x => x ^ 2)
  let dist := dist_x_squared.map (fun dx2 =>
    mathSqrt sqrt (stringToNumber parse (addNumberArray numToString dx2 dist_y_squared)))
  let closest_match_idx := indexOf dist (mathMin dist)
  elementAt data.times closest_match_idx

/-- The distance the comment on line 145 describes, squared: the square root
is increasing, so the same index minimises both. -/
def sqDist (qx qy : ℚ) (p : ℚ × ℚ) : ℚ :=
  (p.1 - qx) ^ 2 + (p.2 - qy) ^ 2

/-! ## Concatenative engine: `ConcatEngine.advanceTime` (index.js 157-219) -/

/-- The part of an `AudioBuffer` the engines read. -/
structure AudioBuffer where
  duration : ℚ
  sampleRate : ℚ

/-- Calls made on the audio graph by one `advanceTime`, in program order. -/
inductive AudioCall where
  | createGain
  | connectEnvToOutput
  | setGainValue (value : ℚ)
  | createBufferSource
  | setSourceBuffer (buffer : Option AudioBuffer)
  | connectSourceToEnv
  | setValueAtTime (value time : ℚ)
  | linearRampToValueAtTime (value time : ℚ)
  | start (when : ℚ) (offset : Option ℚ)
  | stop (when : ℚ)

/-- Whether the call starts a buffer source. -/
def AudioCall.isStart : AudioCall → Bool
  | AudioCall.start _ _ => true
  | _ => false

/-- Fields of a `ConcatEngine`. -/
structure ConcatEngine where
  _buffer : Option AudioBuffer
  period : ℚ
  duration : ℚ

/-- `new ConcatEngine(audioContext)`. -/
def ConcatEngine.new : ConcatEngine :=
  { _buffer := none, period := 1 / 20, duration := 1 / 5 }

/-- `ConcatEngine.advanceTime(currentTime, audioTime, dt)`, reading the
globals `globals.guiPosition` and `data`: the calls made on the audio graph
and the returned time. -/
def ConcatEngine.advanceTime (numToString : ℚ → String) (parse : String → JsNum)
    (sqrt : ℚ → ℚ) (guiPosition : GuiPosition) (data : Data)
    (this : ConcatEngine) (currentTime audioTime _dt : ℚ) : List AudioCall × ℚ :=
  let startTime := findStartTimeFromGuiPosition numToString parse sqrt guiPosition data
  ([ AudioCall.createGain,
     AudioCall.connectEnvToOutput,
     AudioCall.setGainValue 0,
     AudioCall.createBufferSource,
     AudioCall.setSourceBuffer this._buffer,
     AudioCall.connectSourceToEnv,
     AudioCall.setValueAtTime 0 audioTime,
     AudioCall.linearRampToValueAtTime 1 (audioTime + this.duration / 2),
     AudioCall.linearRampToValueAtTime 0 (audioTime + this.duration),
     AudioCall.start audioTime startTime,
     AudioCall.stop (audioTime + this.period) ],
   currentTime + this.period)

/-! ## Granular engine: position setter (granular-synthesis.js 46-55) -/

/-- Errors a JavaScript operation can throw. -/
inductive JsError where
  | typeError
  deriving DecidableEq

/-- Fields of a `GranularEngine`. -/
structure GranularEngine where
  buffer : Option AudioBuffer
  period : ℚ
  duration : ℚ
  _position : ℚ

/-- `new GranularEngine(audioContext)`. -/
def GranularEngine.new : GranularEngine :=
  { buffer := none, period := 1 / 50, duration := 1 / 10, _position := 0 }

/-- The setter `set position(value)`; reading `this.buffer.duration` throws a
`TypeError` while `buffer` is `null`. -/
def GranularEngine.setPosition (this : GranularEngine) (value : ℚ) :
    Except JsError GranularEngine :=
  match this.buffer with
  | none => Except.error JsError.typeError
  | some buffer =>
    let maxPosition := buffer.duration - this.duration
    let minPosition : ℚ := 0
    Except.ok { this with _position := max minPosition (min maxPosition value) }

/-- The getter `get position()`. -/
def GranularEngine.position (this : GranularEngine) : ℚ :=
  this._position

/-! ## Event queue and scheduler loop (scheduling.js 14-68) -/

/-- Engines are objects; an engine is named by a number. -/
abbrev Engine := ℕ

/-- A `DumbPriorityQueue` together with the `time` property of the engine
objects: `engines` is the array `this.engines`; `time e` is `e.time`, which
is only read for engines that `add` has put into the array. -/
structure DumbPriorityQueue where
  engines : List Engine
  time : Engine → ℚ

/-- `new DumbPriorityQueue()`, no engine having a `time` yet (the value given
here is never read before `add` writes it). -/
def DumbPriorityQueue.new : DumbPriorityQueue :=
  { engines := [], time := fun _ => 0 }

/-- `add(engine, time)`: writes `engine.time` and pushes the engine. -/
def DumbPriorityQueue.add (this : DumbPriorityQueue) (engine : Engine) (time : ℚ) :
    DumbPriorityQueue :=
  { engines := this.engines ++ [engine], time := Function.update this.time engine time }

/-- The comparison function `(a, b) => a.time <= b.time ? -1 : 1`. -/
def compareTime (time : Engine → ℚ) (a b : Engine) : ℤ :=
  if time a ≤ time b then -1 else 1

/-- Insertion of `p` into a sorted array: before the first `x` for which
`compare(p, x)` is negative. -/
def sortInsert (compare : Engine → Engine → ℤ) (p : Engine) : List Engine → List Engine
  | [] => [p]
  | x :: xs => if compare p x < 0 then p :: x :: xs else x :: sortInsert compare p xs

/-- `Array.prototype.sort(compare)` as the insertion sort engines run on short
arrays: the elements are inserted from left to right. The comparison
function of `head` never returns `0`, for which the language leaves the order
among engines of equal time to the engine; nothing proved below depends on
that order. -/
def arraySort (compare : Engine → Engine → ℤ) (arr : List Engine) : List Engine :=
  arr.foldl (fun sorted p => sortInsert compare p sorted) []

/-- `head()`: sorts `this.engines` in place, then returns the first engine or
`null`. The result is the queue after the call and the returned value. -/
def DumbPriorityQueue.head (this : DumbPriorityQueue) : DumbPriorityQueue × Option Engine :=
  let sorted := arraySort (compareTime this.time) this.engines
  ({ this with engines := sorted }, sorted.head?)

/-- `deleteHead()`: `this.engines.shift()`. -/
def DumbPriorityQueue.deleteHead (this : DumbPriorityQueue) : DumbPriorityQueue :=
  { this with engines := this.engines.tail }

/-- The constant `period`, in seconds. -/
def period : ℚ := 1 / 20

/-- The constant `lookahead`, in seconds. -/
def lookahead : ℚ := 1 / 10

/-- What `if (nextTime)` tests: `none` stands for a falsy value that is not a
number (`undefined`, `null`, `false`, `NaN`); the number `0` is falsy too. -/
def truthy : Option ℚ → Bool
  | none => false
  | some t => decide (t ≠ 0)

/-- State of one `tick()`: the queue (with the engines' `time` properties),
the remaining state `user` that the engines' `advanceTime` methods read and
write, and the `advanceTime` calls made so far as `(engine, time, dt)`. -/
structure TickState (σ : Type) where
  queue : DumbPriorityQueue
  user : σ
  calls : List (Engine × ℚ × ℚ)

/-- The method `e.advanceTime(time, dt)` of the engines: run in the state
`st` and on the module-level `queue` (which it can reach, like the engines'
`time` properties), it leaves a new state and queue and returns a value. -/
abbrev AdvanceTime (σ : Type) : Type :=
  σ → DumbPriorityQueue → Engine → ℚ → ℚ → σ × DumbPriorityQueue × Option ℚ

/-- The `while (engine && engine.time < now + lookahead)` loop of `tick`,
entered with the current value of the variable `engine`. Each test of the
loop condition consumes one unit of fuel. -/
def tickLoop {σ : Type} (advanceTime : AdvanceTime σ) (now : ℚ) :
    ℕ → Option Engine → TickState σ → Option (TickState σ)
  | 0, _, _ => none
  | _ + 1, none, s => some s
  | fuel + 1, some engine, s =>
    if s.queue.time engine < now + lookahead then
      let queue := s.queue.deleteHead
      let time := queue.time engine
      let dt := time - now
      let (user, queue, nextTime) := advanceTime s.user queue engine time dt
      let queue := if truthy nextTime then queue.add engine (toNumber nextTime) else queue
      let calls := s.calls ++ [(engine, time, dt)]
      let (queue, engine) := queue.head
      tickLoop advanceTime now fuel engine { queue := queue, user := user, calls := calls }
    else some s

/-- The body of `tick()` up to the end of its loop, `now` being the value read
from `audioContext.currentTime`; re-arming through `setTimeout` is left out. -/
def tick {σ : Type} (advanceTime : AdvanceTime σ) (now : ℚ)
    (fuel : ℕ) (s : TickState σ) : Option (TickState σ) :=
  let (queue, engine) := s.queue.head
  tickLoop advanceTime now fuel engine { s with queue := queue }

/-! ## Auxiliary definitions used in the statements and proofs -/

/-- Number of full blocks of size `B` taken every `H` samples from `len`
samples: `floor((len - B) / H) + 1` when `len ≥ B`, else `0`. -/
def blockCount (len B H : ℕ) : ℕ :=
  if B ≤ len then (len - B) / H + 1 else 0

/-- The queue obtained from a fresh one by the calls `add(e, t)` for the
pairs `(e, t)` of `adds`, in order. -/
def addAll (adds : List (Engine × ℚ)) : DumbPriorityQueue :=
  adds.foldl (fun q a => q.add a.1 a.2) DumbPriorityQueue.new

/-- The queue after `if (nextTime) { queue.add(engine, nextTime) }`, `q`
being the queue left by `advanceTime`. -/
def requeue (q : DumbPriorityQueue) (engine : Engine) (nextTime : Option ℚ) :
    DumbPriorityQueue :=
  if truthy nextTime then q.add engine (toNumber nextTime) else q

/-- Number of steps of length `eps` an entry of engine `e` is short of the
horizon `h`. -/
def stepsToHorizon (h eps : ℚ) (time : Engine → ℚ) (e : Engine) : ℕ :=
  ⌈(h - time e) / eps⌉₊

/-- Sum of `stepsToHorizon` over the entries of the queue: the measure that
decreases with every dispatch. -/
def queuePotential (h eps : ℚ) (q : DumbPriorityQueue) : ℕ :=
  (q.engines.map (stepsToHorizon h eps q.time)).sum

/-- An `advanceTime` like that of `metro` with a period of one second: it
leaves the queue alone and returns `time + 1`. -/
def metroAdvanceTime : AdvanceTime Unit :=
  fun st queue _e time _dt => (st, queue, some (time + 1))

/-- An `advanceTime` that calls `queue.add(this, time)` itself and returns
`undefined`. -/
def selfAddAdvanceTime : AdvanceTime Unit :=
  fun st queue e time _dt => (st, queue.add e time, none)

/-- The result of the call `engine.advanceTime(time, dt)` that the loop of
`tick` makes in state `s` for the head `engine`, the head being deleted. -/
def advanceResult {σ : Type} (advanceTime : AdvanceTime σ) (now : ℚ) (s : TickState σ)
    (engine : Engine) : σ × DumbPriorityQueue × Option ℚ :=
  advanceTime s.user s.queue.deleteHead engine (s.queue.time engine)
    (s.queue.time engine - now)

/-- The state at the end of one pass through the body of the loop of `tick`
that dispatches `engine`, the last `head()` included. -/
def nextState {σ : Type} (advanceTime : AdvanceTime σ) (now : ℚ) (s : TickState σ)
    (engine : Engine) : TickState σ :=
  { queue := (requeue (advanceResult advanceTime now s engine).2.1 engine
      (advanceResult advanceTime now s engine).2.2).head.1,
    user := (advanceResult advanceTime now s engine).1,
    calls := s.calls ++ [(engine, s.queue.time engine, s.queue.time engine - now)] }

/-- Following the spec's words (scheduler loop, step 2), for engines that
leave the queue alone: a run from `s` to `s'` either stops, nothing pending
being due before `now + lookahead`, or takes a pending engine `e` of minimal
time, that time being below `now + lookahead`, removes one entry of `e`,
calls its `advanceTime` with `(time, time - now)`, re-enqueues `e` at the
returned time if that is truthy, and goes on. The order of the pending
entries is left open. -/
inductive DispatchRun {σ : Type} (advanceTime : AdvanceTime σ) (now : ℚ) :
    TickState σ → TickState σ → Prop
  | stop (s s' : TickState σ) :
      (∀ e ∈ s.queue.engines, now + lookahead ≤ s.queue.time e) →
      s'.queue.engines.Perm s.queue.engines →
      s'.queue.time = s.queue.time →
      s'.user = s.user →
      s'.calls = s.calls →
      DispatchRun advanceTime now s s'
  | dispatch (s mid s' : TickState σ) (e : Engine) (passed : DumbPriorityQueue) :
      e ∈ s.queue.engines →
      (∀ x ∈ s.queue.engines, s.queue.time e ≤ s.queue.time x) →
      s.queue.time e < now + lookahead →
      passed.engines.Perm (s.queue.engines.erase e) →
      passed.time = s.queue.time →
      mid.user =
        (advanceTime s.user passed e (s.queue.time e) (s.queue.time e - now)).1 →
      mid.calls = s.calls ++ [(e, s.queue.time e, s.queue.time e - now)] →
      mid.queue.engines.Perm
        (if truthy (advanceTime s.user passed e (s.queue.time e) (s.queue.time e - now)).2.2
          then s.queue.engines.erase e ++ [e] else s.queue.engines.erase e) →
      mid.queue.time =
        (if truthy (advanceTime s.user passed e (s.queue.time e) (s.queue.time e - now)).2.2
          then Function.update s.queue.time e
            (toNumber (advanceTime s.user passed e (s.queue.time e)
              (s.queue.time e - now)).2.2)
          else s.queue.time) →
      DispatchRun advanceTime now mid s' →
      DispatchRun advanceTime now s s'

/-- Following the spec's words: the number of sign changes between
consecutive non-zero samples of a block, samples equal to `0` being skipped. -/
def signChanges (block : List ℚ) : ℕ :=
  let nonZero := block.filter (fun x => decide (x ≠ 0))
  ((nonZero.zip nonZero.tail).filter
    (fun p => decide ((p.1 < 0 ∧ 0 < p.2) ∨ (0 < p.1 ∧ p.2 < 0)))).length

/-- The inner loop of `zeroCrossing` run over the samples themselves instead
of their indices: the counter after the samples of `l`, from the state
`(cnt, wasPositive)`. -/
def countFrom (state : ℕ × Bool) (l : List ℚ) : ℕ × Bool :=
  l.foldl (fun st x =>
    if decide (x < 0) && st.2 then (st.1 + 1, false)
    else if decide (0 < x) && !st.2 then (st.1 + 1, true)
    else st) state

/-- Whether the block begins with a sample equal to `0` and its first
non-zero sample is positive. -/
def zeroThenPositive (block : List ℚ) : Bool :=
  decide (block.head? = some 0) &&
    gtZero (block.filter (fun x => decide (x ≠ 0))).head?

/-! # Theorems -/

/-! ## Feature extractor -/

theorem blockCount_le_of_not_fits {len B H k : ℕ} (hH : 1 ≤ H) (h : len < k * H + B) :
    blockCount len B H ≤ k := by
  unfold blockCount
  split
  · rename_i hB
    have h1 : len - B < k * H := by omega
    have : (len - B) / H < k := (Nat.div_lt_iff_lt_mul (by omega)).2 h1
    omega
  · omega

theorem lt_blockCount_of_fits {len B H k : ℕ} (hH : 1 ≤ H) (h : k * H + B ≤ len) :
    k < blockCount len B H := by
  unfold blockCount
  have hB : B ≤ len := by omega
  rw [if_pos hB]
  have : k ≤ (len - B) / H := (Nat.le_div_iff_mul_le (by omega)).2 (by omega)
  omega

theorem lt_blockCount_iff {len B H k : ℕ} (hH : 1 ≤ H) :
    k < blockCount len B H ↔ k * H + B ≤ len := by
  constructor
  · intro h
    by_contra hc
    have := @blockCount_le_of_not_fits len B H k hH (by omega)
    omega
  · exact lt_blockCount_of_fits hH

theorem getTimesLoop_eq (dataLen : ℕ) (sampleRate : ℚ) (B H : ℕ) (hB : 1 ≤ B) (hH : 1 ≤ H) :
    ∀ (fuel k : ℕ) (times : List ℚ), dataLen - k * H < fuel →
      getTimesLoop dataLen sampleRate B H fuel (k * H) times =
        some (times ++ (List.range' k (blockCount dataLen B H - k)).map
          (fun i => ((i * H : ℕ) : ℚ) / sampleRate)) := by
  intro fuel
  induction fuel with
  | zero => intro k times h; omega
  | succ fuel ih =>
    intro k times h
    have hstep : k * H + H = (k + 1) * H := by ring
    have hfuel : dataLen - (k + 1) * H < fuel ∨ dataLen ≤ k * H := by
      rw [← hstep]; omega
    unfold getTimesLoop
    by_cases hlt : k * H < dataLen
    · have hfuel2 : dataLen - (k + 1) * H < fuel := by
        rw [← hstep]; omega
      rw [if_pos hlt]
      by_cases hfit : k * H + B ≤ dataLen
      · simp only [hfit, if_true]
        rw [hstep, ih (k + 1) _ hfuel2]
        have hk : k < blockCount dataLen B H := lt_blockCount_of_fits hH hfit
        have : blockCount dataLen B H - k = (blockCount dataLen B H - (k + 1)) + 1 := by omega
        rw [this, List.range'_succ]
        simp
      · simp only [hfit, if_false]
        rw [hstep, ih (k + 1) _ hfuel2]
        have hk : blockCount dataLen B H ≤ k := blockCount_le_of_not_fits hH (by omega)
        have e1 : blockCount dataLen B H - k = 0 := by omega
        have e2 : blockCount dataLen B H - (k + 1) = 0 := by omega
        rw [e1, e2]
        simp
    · rw [if_neg hlt]
      have hk : blockCount dataLen B H ≤ k := blockCount_le_of_not_fits hH (by omega)
      have e1 : blockCount dataLen B H - k = 0 := by omega
      rw [e1]
      simp


/-- C3: for `B ≥ 1`, `H ≥ 1`, `sampleRate > 0` and fuel above the number of
samples, `getTimes` returns a list `times` with `floor((len - B) / H) + 1`
entries when `len ≥ B` and none otherwise; index `i` is present exactly when
`i * H + B ≤ len`, entry `i` is `i * H / sampleRate`, and the list is strictly
increasing. -/
theorem getTimes_full_blocks (channelData : List ℚ) (sampleRate : ℚ) (B H : ℕ)
    (hB : 1 ≤ B) (hH : 1 ≤ H) (hsr : 0 < sampleRate) (fuel : ℕ)
    (hfuel : channelData.length < fuel) :
    ∃ times, getTimes fuel channelData sampleRate B H = some times ∧
      times.length =
        (if B ≤ channelData.length then (channelData.length - B) / H + 1 else 0) ∧
      (∀ i, i < times.length ↔ i * H + B ≤ channelData.length) ∧
      (∀ i (h : i < times.length), times.get ⟨i, h⟩ = ((i * H : ℕ) : ℚ) / sampleRate) ∧
      times.Pairwise (fun s t => s < t) := by
  have hloop := getTimesLoop_eq channelData.length sampleRate B H hB hH fuel 0 []
    (by simpa using hfuel)
  simp only [Nat.zero_mul, Nat.sub_zero, List.nil_append] at hloop
  rw [← List.range_eq_range'] at hloop
  refine ⟨_, hloop, ?_, ?_, ?_, ?_⟩
  · simp [blockCount]
  · intro i
    simp only [List.length_map, List.length_range]
    exact lt_blockCount_iff hH
  · intro i h
    simp
  · rw [List.pairwise_map]
    refine (List.pairwise_lt_range _).imp ?_
    intro a b hab
    apply div_lt_div_of_pos_right _ hsr
    have : a * H < b * H := Nat.mul_lt_mul_of_pos_right hab (by omega)
    exact_mod_cast this

/-- Witness for C3: five samples, blocks of two every two samples at rate 2. -/
theorem getTimes_full_blocks_witness :
    ∃ times, getTimes 6 [0, 0, 0, 0, 0] 2 2 2 = some times ∧
      times.length = (if 2 ≤ [(0 : ℚ), 0, 0, 0, 0].length then
        ([(0 : ℚ), 0, 0, 0, 0].length - 2) / 2 + 1 else 0) ∧
      (∀ i, i < times.length ↔ i * 2 + 2 ≤ [(0 : ℚ), 0, 0, 0, 0].length) ∧
      (∀ i (h : i < times.length), times.get ⟨i, h⟩ = ((i * 2 : ℕ) : ℚ) / 2) ∧
      times.Pairwise (fun s t => s < t) :=
  getTimes_full_blocks [0, 0, 0, 0, 0] 2 2 2 (by decide) (by decide) (by norm_num) 6 (by decide)


/-! ## Normalizer -/

/-- C1: `normalize` divides the shifted values by `max`, not by `max - min`:
`[1, 3]` gives `[0, 2/3]` (maximum `2/3`, not `1`) and `[-3, -1]` gives
`[0, -2]` (outside `[0, 1]`). -/
theorem normalize_divides_by_max :
    normalize [1, 3] = [JsNum.num 0, JsNum.num (2 / 3)] ∧
      normalize [-3, -1] = [JsNum.num 0, JsNum.num (-2)] := by
  constructor
  · simp [normalize, jsDiv]
    norm_num
  · simp [normalize, jsDiv]
    norm_num

theorem foldl_max_replicate (c : ℚ) (n : ℕ) : (List.replicate n c).foldl Max.max c = c := by
  induction n with
  | zero => rfl
  | succ n ih => simp [List.replicate_succ, ih]

theorem foldl_min_replicate (c : ℚ) (n : ℕ) : (List.replicate n c).foldl Min.min c = c := by
  induction n with
  | zero => rfl
  | succ n ih => simp [List.replicate_succ, ih]

/-- C8, as stated, fails: on the constant sequence `[0, 0]` the division is
`0 / 0` and every entry of the result is `NaN`. -/
theorem normalize_zero_constant_nan : normalize [0, 0] = [JsNum.nan, JsNum.nan] := by
  simp [normalize, jsDiv]

/-- C8, amended: on a non-empty constant sequence of a value `c ≠ 0`,
`normalize` returns a sequence of the same length whose entries are all `0`. -/
theorem normalize_constant (c : ℚ) (n : ℕ) (hc : c ≠ 0) :
    normalize (List.replicate (n + 1) c) = List.replicate (n + 1) (JsNum.num 0) := by
  have hmax := foldl_max_replicate c n
  have hmin := foldl_min_replicate c n
  simp only [normalize, List.replicate_succ, hmax, hmin, List.map_cons, List.map_map,
    List.map_replicate, Function.comp, sub_self, jsDiv, hc, if_false, zero_div]

/-- Witness for C8: three entries equal to `5`. -/
theorem normalize_constant_witness :
    normalize (List.replicate (2 + 1) 5) = List.replicate (2 + 1) (JsNum.num 0) :=
  normalize_constant 5 2 (by norm_num)

-- C7

/-! ## Position matcher -/

theorem comma_mem_intercalate_go (xs : List String) :
    ∀ acc : String, ',' ∈ acc.data → ',' ∈ (String.intercalate.go acc "," xs).data := by
  induction xs with
  | nil => intro acc h; simpa [String.intercalate.go] using h
  | cons x xs ih =>
    intro acc h
    simp only [String.intercalate.go]
    apply ih
    simp [String.data_append, h]

theorem comma_mem_arrayToString (numToString : ℚ → String) (arr : List ℚ)
    (h : 2 ≤ arr.length) : ',' ∈ (arrayToString numToString arr).data := by
  match arr, h with
  | a :: b :: rest, _ =>
    simp only [arrayToString, List.map_cons, String.intercalate, String.intercalate.go]
    apply comma_mem_intercalate_go
    simp [String.data_append]

theorem stringToNumber_addNumberArray (numToString : ℚ → String) (parse : String → JsNum)
    (n : ℚ) (arr : List ℚ) (h : 2 ≤ arr.length) :
    stringToNumber parse (addNumberArray numToString n arr) = JsNum.nan := by
  have hc := comma_mem_arrayToString numToString arr h
  simp [stringToNumber, addNumberArray, String.data_append, hc]

theorem indexOfFrom_all_nan (v : JsNum) (xs : List JsNum) (h : ∀ d ∈ xs, d = JsNum.nan) :
    ∀ i, indexOfFrom v xs i = none := by
  induction xs with
  | nil => intro i; rfl
  | cons d ds ih =>
    intro i
    have hd : d = JsNum.nan := h d (List.mem_cons_self _ _)
    subst hd
    simp only [indexOfFrom, strictEq]
    simpa using ih (fun d hd => h d (List.mem_cons_of_mem _ hd)) (i + 1)

theorem findStart_undefined (numToString : ℚ → String) (parse : String → JsNum)
    (sqrt : ℚ → ℚ) (guiPosition : GuiPosition) (data : Data) (h : 2 ≤ data.normY.length) :
    findStartTimeFromGuiPosition numToString parse sqrt guiPosition data = none := by
  unfold findStartTimeFromGuiPosition
  simp only
  rw [indexOf, indexOfFrom_all_nan]
  · rfl
  · intro d hd
    simp only [List.mem_map] at hd
    obtain ⟨dx2, _, rfl⟩ := hd
    rw [stringToNumber_addNumberArray]
    · rfl
    · simpa using h

/-- C2: with two table entries the function returns `undefined` whatever the
engine's number formatting, parsing and square root are, although the query
`(1, 1)` is exactly entry `1` of the tables (squared distance `0`), whose
start time is `1/2`. -/
theorem findStartTimeFromGuiPosition_two_points (numToString : ℚ → String)
    (parse : String → JsNum) (sqrt : ℚ → ℚ) :
    findStartTimeFromGuiPosition numToString parse sqrt { x := some 1, y := some 1 }
        { times := [0, 1 / 2], rms := [0, 1], zeroCrossing := [0, 1],
          normX := [0, 1], normY := [0, 1] } = none ∧
      sqDist 1 1 (1, 1) = 0 ∧ [(0 : ℚ), 1 / 2].get? 1 = some (1 / 2) := by
  refine ⟨findStart_undefined numToString parse sqrt _ _ (by decide), ?_, rfl⟩
  simp [sqDist]

/-! ## Concatenative engine -/

/-- C9, as stated, fails: with the pointer inactive (`x` and `y` are `null`)
`advanceTime` still starts one buffer source, here at `audioTime = 0` with an
`undefined` offset. The stand-ins for the engine's string and square-root
functions do not matter here, the tables having two entries. -/
theorem advanceTime_inactive_pointer_starts_source :
    (ConcatEngine.advanceTime (fun _ => "") (fun _ => JsNum.nan) (fun q => q)
        { x := none, y := none }
        { times := [0, 1 / 2], rms := [0, 1], zeroCrossing := [0, 1],
          normX := [0, 1], normY := [0, 1] }
        ConcatEngine.new 0 0 0).1.filter AudioCall.isStart = [AudioCall.start 0 none] := by
  have h := findStart_undefined (fun _ => "") (fun _ => JsNum.nan) (fun q => q)
    { x := none, y := none }
    { times := [0, 1 / 2], rms := [0, 1], zeroCrossing := [0, 1],
      normX := [0, 1], normY := [0, 1] } (by decide)
  simp only [ConcatEngine.advanceTime, h]
  rfl

/-- C9, amended: in every state of the engine, the pointer and the tables
(the pointer being active or not), `advanceTime` starts exactly one buffer
source, at `audioTime` with the offset computed by the position matcher, and
returns `currentTime + period`. -/
theorem advanceTime_always_starts_source (numToString : ℚ → String) (parse : String → JsNum)
    (sqrt : ℚ → ℚ) (guiPosition : GuiPosition) (data : Data) (this : ConcatEngine)
    (currentTime audioTime dt : ℚ) :
    (ConcatEngine.advanceTime numToString parse sqrt guiPosition data this
        currentTime audioTime dt).1.filter AudioCall.isStart =
      [AudioCall.start audioTime
        (findStartTimeFromGuiPosition numToString parse sqrt guiPosition data)] ∧
    (ConcatEngine.advanceTime numToString parse sqrt guiPosition data this
        currentTime audioTime dt).2 = currentTime + this.period := by
  constructor <;> rfl

/-! ## Granular engine -/

/-- C7, as stated, fails: with a buffer of `0.05` s and the default grain
duration `0.1`, setting the position to the buffer duration stores `0`, which
is above `D - d = -0.05`. -/
theorem setPosition_short_buffer :
    ∃ e, GranularEngine.setPosition
        { buffer := some { duration := 1 / 20, sampleRate := 44100 },
          period := 1 / 50, duration := 1 / 10, _position := 0 } (1 / 20) = Except.ok e ∧
      e.position = 0 ∧ ¬ (e.position ≤ 1 / 20 - 1 / 10) := by
  refine ⟨_, rfl, ?_, ?_⟩
  · simp only [GranularEngine.position]
    norm_num
  · simp only [GranularEngine.position]
    norm_num

/-- C7, amended: with a buffer of duration `D` set and grain duration `d`, the
setter succeeds, changes only the stored position and stores
`p = max 0 (min (D - d) v)`: `0 ≤ p` always, `p ≤ D - d` when `d ≤ D`, `p = 0`
when `D < d`, `p = v` when `0 ≤ v ≤ D - d`, and `p = D - d` for `v = D` when
`0 ≤ d ≤ D`. -/
theorem setPosition_clamps (this : GranularEngine) (buffer : AudioBuffer) (value : ℚ)
    (hbuf : this.buffer = some buffer) :
    ∃ e, this.setPosition value = Except.ok e ∧
      e.buffer = this.buffer ∧ e.period = this.period ∧ e.duration = this.duration ∧
      e.position = max 0 (min (buffer.duration - this.duration) value) ∧
      0 ≤ e.position ∧
      (this.duration ≤ buffer.duration → e.position ≤ buffer.duration - this.duration) ∧
      (buffer.duration < this.duration → e.position = 0) ∧
      (0 ≤ value → value ≤ buffer.duration - this.duration → e.position = value) ∧
      (0 ≤ this.duration → this.duration ≤ buffer.duration → value = buffer.duration →
        e.position = buffer.duration - this.duration) := by
  refine ⟨{ this with _position := max 0 (min (buffer.duration - this.duration) value) },
    ?_, rfl, rfl, rfl, rfl, ?_, ?_, ?_, ?_, ?_⟩
  · simp [GranularEngine.setPosition, hbuf]
  · exact le_max_left _ _
  · intro h
    simp only [GranularEngine.position]
    exact max_le (by linarith) (min_le_left _ _)
  · intro h
    simp only [GranularEngine.position]
    apply max_eq_left
    exact le_trans (min_le_left _ _) (by linarith)
  · intro h0 h1
    simp only [GranularEngine.position]
    rw [min_eq_right h1, max_eq_right h0]
  · intro h0 h1 hv
    simp only [GranularEngine.position]
    rw [hv, min_eq_left (by linarith), max_eq_right (by linarith)]

/-- Witness for C7: a one-second buffer, grain duration `0.1`, value `1`. -/
theorem setPosition_clamps_witness :
    ∃ e, GranularEngine.setPosition
        { buffer := some { duration := 1, sampleRate := 44100 },
          period := 1 / 50, duration := 1 / 10, _position := 0 } 1 = Except.ok e ∧
      e.position = 1 - 1 / 10 := by
  obtain ⟨e, h1, _, _, _, _, _, _, _, _, h⟩ := setPosition_clamps
    { buffer := some { duration := 1, sampleRate := 44100 },
      period := 1 / 50, duration := 1 / 10, _position := 0 }
    { duration := 1, sampleRate := 44100 } 1 rfl
  exact ⟨e, h1, h (by norm_num) (by norm_num) rfl⟩

/-! ## Event queue -/

theorem compareTime_neg_iff (time : Engine → ℚ) (a b : Engine) :
    compareTime time a b < 0 ↔ time a ≤ time b := by
  unfold compareTime
  split <;> simp [*]

theorem sortInsert_perm (compare : Engine → Engine → ℤ) (p : Engine) (xs : List Engine) :
    (sortInsert compare p xs).Perm (p :: xs) := by
  induction xs with
  | nil => exact List.Perm.refl _
  | cons x xs ih =>
    simp only [sortInsert]
    split
    · exact List.Perm.refl _
    · exact (List.Perm.cons x ih).trans (List.Perm.swap p x xs)

theorem foldl_sortInsert_perm (compare : Engine → Engine → ℤ) (arr : List Engine) :
    ∀ sorted : List Engine,
      (arr.foldl (fun sorted p => sortInsert compare p sorted) sorted).Perm (sorted ++ arr) := by
  induction arr with
  | nil => intro sorted; simp
  | cons p arr ih =>
    intro sorted
    simp only [List.foldl_cons]
    refine (ih _).trans ?_
    refine (List.Perm.append_right arr (sortInsert_perm compare p sorted)).trans ?_
    simpa using (@List.perm_middle _ p sorted arr).symm

theorem arraySort_perm (compare : Engine → Engine → ℤ) (arr : List Engine) :
    (arraySort compare arr).Perm arr := by
  simpa [arraySort] using foldl_sortInsert_perm compare arr []

theorem sortInsert_sorted (time : Engine → ℚ) (p : Engine) (xs : List Engine)
    (h : xs.Pairwise (fun a b => time a ≤ time b)) :
    (sortInsert (compareTime time) p xs).Pairwise (fun a b => time a ≤ time b) := by
  induction xs with
  | nil => simp [sortInsert]
  | cons x xs ih =>
    simp only [sortInsert, compareTime_neg_iff]
    rw [List.pairwise_cons] at h
    split
    · rename_i hpx
      refine List.Pairwise.cons ?_ (List.Pairwise.cons h.1 h.2)
      intro b hb
      rcases List.mem_cons.1 hb with rfl | hb
      · exact hpx
      · exact le_trans hpx (h.1 b hb)
    · rename_i hpx
      refine List.Pairwise.cons ?_ (ih h.2)
      intro b hb
      have hb2 := (sortInsert_perm (compareTime time) p xs).subset hb
      rcases List.mem_cons.1 hb2 with rfl | hb2
      · exact le_of_lt (not_le.1 hpx)
      · exact h.1 b hb2

theorem foldl_sortInsert_sorted (time : Engine → ℚ) (arr : List Engine) :
    ∀ sorted : List Engine, sorted.Pairwise (fun a b => time a ≤ time b) →
      (arr.foldl (fun sorted p => sortInsert (compareTime time) p sorted) sorted).Pairwise
        (fun a b => time a ≤ time b) := by
  induction arr with
  | nil => intro sorted h; simpa using h
  | cons p arr ih =>
    intro sorted h
    simp only [List.foldl_cons]
    exact ih _ (sortInsert_sorted time p sorted h)

theorem arraySort_sorted (time : Engine → ℚ) (arr : List Engine) :
    (arraySort (compareTime time) arr).Pairwise (fun a b => time a ≤ time b) :=
  foldl_sortInsert_sorted time arr [] List.Pairwise.nil

theorem head_none_iff (q : DumbPriorityQueue) : q.head.2 = none ↔ q.engines = [] := by
  simp only [DumbPriorityQueue.head, List.head?_eq_none_iff]
  constructor
  · intro h
    have := (arraySort_perm (compareTime q.time) q.engines)
    rw [h] at this
    exact List.Perm.nil_eq this |>.symm
  · intro h
    rw [h]; rfl

theorem head_some_min (q : DumbPriorityQueue) (e : Engine) (h : q.head.2 = some e) :
    e ∈ q.engines ∧ ∀ e' ∈ q.engines, q.time e ≤ q.time e' := by
  simp only [DumbPriorityQueue.head] at h
  have hperm := arraySort_perm (compareTime q.time) q.engines
  have hsorted := arraySort_sorted q.time q.engines
  cases hs : arraySort (compareTime q.time) q.engines with
  | nil => rw [hs] at h; simp at h
  | cons x xs =>
    rw [hs] at h hperm hsorted
    simp only [List.head?_cons, Option.some.injEq] at h
    subst h
    refine ⟨hperm.subset (List.mem_cons_self _ _), ?_⟩
    intro e' he'
    have := hperm.symm.subset he'
    rcases List.mem_cons.1 this with rfl | hx
    · exact le_refl _
    · exact (List.pairwise_cons.1 hsorted).1 e' hx

theorem addAll_append (adds : List (Engine × ℚ)) (a : Engine × ℚ) :
    addAll (adds ++ [a]) = (addAll adds).add a.1 a.2 := by
  simp [addAll, List.foldl_append]

theorem addAll_engines (adds : List (Engine × ℚ)) :
    (addAll adds).engines = adds.map Prod.fst := by
  induction adds using List.reverseRecOn with
  | nil => rfl
  | append_singleton adds a ih =>
    rw [addAll_append]
    simp [DumbPriorityQueue.add, ih]

theorem sortInsert_last (time : Engine → ℚ) (p : Engine) (xs : List Engine)
    (h : ∀ x ∈ xs, time x < time p) : sortInsert (compareTime time) p xs = xs ++ [p] := by
  induction xs with
  | nil => rfl
  | cons x xs ih =>
    have hx : ¬ time p ≤ time x := not_le.2 (h x (List.mem_cons_self _ _))
    simp only [sortInsert, compareTime_neg_iff, hx, if_false, List.cons_append]
    rw [ih (fun y hy => h y (List.mem_cons_of_mem _ hy))]

theorem foldl_sortInsert_increasing (time : Engine → ℚ) (arr : List Engine) :
    ∀ sorted : List Engine, (sorted ++ arr).Pairwise (fun a b => time a < time b) →
      arr.foldl (fun sorted p => sortInsert (compareTime time) p sorted) sorted =
        sorted ++ arr := by
  induction arr with
  | nil => intro sorted _; simp
  | cons p arr ih =>
    intro sorted h
    simp only [List.foldl_cons]
    have hp : ∀ x ∈ sorted, time x < time p := by
      intro x hx
      exact (List.pairwise_append.1 h).2.2 x hx p (List.mem_cons_self _ _)
    rw [sortInsert_last time p sorted hp, ih]
    · simp
    · simpa using h

/-- C4: after any sequence of `add` calls on a fresh queue the array holds the
added engines; `head()` returns `null` exactly when nothing was added, and an
engine it returns is pending and has a time no later than every pending
engine. After `add(A, 5)`, `add(B, 2)`, `add(A, 1)` (A is `0`, B is `1`) it
returns A, whose time is `1`. -/
theorem head_returns_minimum (adds : List (Engine × ℚ)) :
    (addAll adds).engines = adds.map Prod.fst ∧
    ((addAll adds).head.2 = none ↔ adds = []) ∧
    (∀ e, (addAll adds).head.2 = some e →
      e ∈ adds.map Prod.fst ∧
        ∀ x ∈ adds.map Prod.fst, (addAll adds).time e ≤ (addAll adds).time x) ∧
    ((addAll [(0, 5), (1, 2), (0, 1)]).head.2 = some 0 ∧
      (addAll [(0, 5), (1, 2), (0, 1)]).time 0 = 1) := by
  refine ⟨addAll_engines adds, ?_, ?_, ?_, ?_⟩
  · rw [head_none_iff, addAll_engines]
    simp
  · intro e he
    have := head_some_min (addAll adds) e he
    rwa [addAll_engines] at this
  · simp [addAll, DumbPriorityQueue.head, DumbPriorityQueue.add, DumbPriorityQueue.new,
      arraySort, sortInsert, compareTime, Function.update]
  · simp [addAll, DumbPriorityQueue.add, DumbPriorityQueue.new, Function.update]

/-- C5, as stated, fails: after `add(A, 5)` and `add(A, 1)` on a fresh queue
the array holds two entries for the one engine A. -/
theorem add_twice_two_entries :
    ((DumbPriorityQueue.new.add 0 5).add 0 1).engines = [0, 0] ∧
      ((DumbPriorityQueue.new.add 0 5).add 0 1).engines.count 0 ≠ 1 := by
  constructor
  · rfl
  · decide

/-- C5, amended: `add` always appends. After `add(e, t1)` and `add(e, t2)` the
array holds two more entries for `e` than before, `e.time` is `t2` (read by
all entries of `e`), the times of the other engines are unchanged, and after
any sequence of `add` calls on a fresh queue the number of entries is the
number of calls. -/
theorem add_appends_entry (q : DumbPriorityQueue) (e : Engine) (t1 t2 : ℚ) :
    ((q.add e t1).add e t2).engines = q.engines ++ [e, e] ∧
    ((q.add e t1).add e t2).engines.count e = q.engines.count e + 2 ∧
    ((q.add e t1).add e t2).time e = t2 ∧
    (∀ x, x ≠ e → ((q.add e t1).add e t2).time x = q.time x) ∧
    (∀ adds : List (Engine × ℚ), (addAll adds).engines.length = adds.length) := by
  refine ⟨by simp [DumbPriorityQueue.add], by simp [DumbPriorityQueue.add],
    by simp [DumbPriorityQueue.add], ?_, ?_⟩
  · intro x hx
    simp [DumbPriorityQueue.add, Function.update_noteq hx]
  · intro adds
    rw [addAll_engines, List.length_map]

/-- C10, as stated, fails: on the queue holding A with time `5` followed by B
with time `2`, `head()` leaves the array as B, A. -/
theorem head_reorders_engines :
    ((DumbPriorityQueue.new.add 0 5).add 1 2).engines = [0, 1] ∧
      ((DumbPriorityQueue.new.add 0 5).add 1 2).head.1.engines = [1, 0] := by
  constructor
  · rfl
  · simp [DumbPriorityQueue.head, DumbPriorityQueue.add, DumbPriorityQueue.new,
      arraySort, sortInsert, compareTime, Function.update]
    norm_num

/-- C10, amended: `head()` changes no engine's time and re-sorts the array in
place: afterwards the array is a permutation of what it was, in
non-decreasing order of time; an array already in strictly increasing order
of time is left exactly as it was. -/
theorem head_only_sorts (q : DumbPriorityQueue) :
    q.head.1.time = q.time ∧
    q.head.1.engines.Perm q.engines ∧
    q.head.1.engines.Pairwise (fun a b => q.time a ≤ q.time b) ∧
    (q.engines.Pairwise (fun a b => q.time a < q.time b) → q.head.1.engines = q.engines) := by
  refine ⟨rfl, arraySort_perm _ _, arraySort_sorted _ _, ?_⟩
  intro h
  simpa [DumbPriorityQueue.head, arraySort] using
    foldl_sortInsert_increasing q.time q.engines [] (by simpa using h)

/-! ## Scheduler loop -/

theorem stepsToHorizon_pos {h eps : ℚ} (heps : 0 < eps) (time : Engine → ℚ) (e : Engine)
    (hlt : time e < h) : 0 < stepsToHorizon h eps time e := by
  unfold stepsToHorizon
  rw [Nat.ceil_pos]
  exact div_pos (by linarith) heps

theorem stepsToHorizon_update_self {h eps : ℚ} (heps : 0 < eps) (time : Engine → ℚ)
    (e : Engine) (t : ℚ) (hlt : time e < h) (ht : time e + eps ≤ t) :
    stepsToHorizon h eps (Function.update time e t) e + 1 ≤ stepsToHorizon h eps time e := by
  have hpos := stepsToHorizon_pos heps time e hlt
  unfold stepsToHorizon at *
  simp only [Function.update_same]
  have h1 : (h - t) / eps + 1 ≤ (h - time e) / eps := by
    rw [div_add_one (ne_of_gt heps)]
    exact div_le_div_of_nonneg_right (by linarith) (le_of_lt heps)
  by_cases ha : 0 ≤ (h - t) / eps
  · rw [← Nat.ceil_add_one ha]
    exact Nat.ceil_le_ceil h1
  · have : ⌈(h - t) / eps⌉₊ = 0 := Nat.ceil_eq_zero.2 (le_of_lt (not_le.1 ha))
    omega

theorem stepsToHorizon_update_le {h eps : ℚ} (heps : 0 < eps) (time : Engine → ℚ)
    (e : Engine) (t : ℚ) (ht : time e ≤ t) (x : Engine) :
    stepsToHorizon h eps (Function.update time e t) x ≤ stepsToHorizon h eps time x := by
  unfold stepsToHorizon
  apply Nat.ceil_le_ceil
  apply div_le_div_of_nonneg_right _ (le_of_lt heps)
  by_cases hx : x = e
  · subst hx; simp only [Function.update_same]; linarith
  · simp [Function.update_noteq hx]


theorem queuePotential_head (h eps : ℚ) (q : DumbPriorityQueue) :
    queuePotential h eps q.head.1 = queuePotential h eps q := by
  unfold queuePotential
  exact ((arraySort_perm (compareTime q.time) q.engines).map _).sum_eq

theorem tickLoop_some {σ : Type} (advanceTime : AdvanceTime σ) (now : ℚ)
    (fuel : ℕ) (engine : Engine) (s : TickState σ) :
    tickLoop advanceTime now (fuel + 1) (some engine) s =
      if s.queue.time engine < now + lookahead then
        tickLoop advanceTime now fuel
          (nextState advanceTime now s engine).queue.engines.head?
          (nextState advanceTime now s engine)
      else some s := by
  rfl

theorem tick_eq {σ : Type} (advanceTime : AdvanceTime σ) (now : ℚ) (fuel : ℕ)
    (s : TickState σ) :
    tick advanceTime now fuel s =
      tickLoop advanceTime now fuel s.queue.head.1.engines.head?
        { s with queue := s.queue.head.1 } := by
  rfl

theorem requeue_deleteHead_engines (q : DumbPriorityQueue) (e : Engine) (rest : List Engine)
    (hq : q.engines = e :: rest) (nextTime : Option ℚ) :
    (requeue q.deleteHead e nextTime).engines =
      if truthy nextTime then q.engines.erase e ++ [e] else q.engines.erase e := by
  unfold requeue
  split <;> simp [DumbPriorityQueue.add, DumbPriorityQueue.deleteHead, hq]

theorem requeue_deleteHead_time (q : DumbPriorityQueue) (e : Engine) (nextTime : Option ℚ) :
    (requeue q.deleteHead e nextTime).time =
      if truthy nextTime then Function.update q.time e (toNumber nextTime) else q.time := by
  unfold requeue
  split <;> rfl

theorem requeue_engines_subset (q : DumbPriorityQueue) (e : Engine) (rest : List Engine)
    (hq : q.engines = e :: rest) (nextTime : Option ℚ) :
    ∀ x ∈ (requeue q.deleteHead e nextTime).engines, x ∈ q.engines := by
  intro x hx
  rw [requeue_deleteHead_engines q e rest hq] at hx
  split at hx
  · rcases List.mem_append.1 hx with hx | hx
    · exact List.mem_of_mem_erase hx
    · rw [List.mem_singleton.1 hx, hq]; exact List.mem_cons_self _ _
  · exact List.mem_of_mem_erase hx

theorem queuePotential_requeue_lt {h eps : ℚ} (heps : 0 < eps) (q : DumbPriorityQueue)
    (e : Engine) (rest : List Engine) (hq : q.engines = e :: rest) (hlt : q.time e < h)
    (nextTime : Option ℚ)
    (hnext : ∀ t, nextTime = some t → t ≠ 0 → q.time e + eps ≤ t) :
    queuePotential h eps (requeue q.deleteHead e nextTime) < queuePotential h eps q := by
  have hpos := stepsToHorizon_pos heps q.time e hlt
  unfold requeue
  split
  · rename_i htruthy
    obtain ⟨t, rfl⟩ : ∃ t, nextTime = some t := by
      cases nextTime with
      | none => simp [truthy] at htruthy
      | some t => exact ⟨t, rfl⟩
    have ht0 : t ≠ 0 := by simpa [truthy] using htruthy
    have hstep := hnext t rfl ht0
    have hself := stepsToHorizon_update_self heps q.time e t hlt hstep
    have hrest : (rest.map (stepsToHorizon h eps (Function.update q.time e t))).sum ≤
        (rest.map (stepsToHorizon h eps q.time)).sum := by
      apply List.sum_le_sum
      intro x _
      exact stepsToHorizon_update_le heps q.time e t (by linarith) x
    simp only [queuePotential, DumbPriorityQueue.add, DumbPriorityQueue.deleteHead, hq,
      List.tail_cons, toNumber, List.map_append, List.sum_append, List.map_cons, List.map_nil,
      List.sum_cons, List.sum_nil]
    omega
  · simp only [queuePotential, DumbPriorityQueue.deleteHead, hq, List.tail_cons,
      List.map_cons, List.sum_cons]
    omega

theorem dispatchRun_of_perm {σ : Type} (advanceTime : AdvanceTime σ) (now : ℚ)
    (s s' t : TickState σ) (h : DispatchRun advanceTime now s s')
    (hperm : t.queue.engines.Perm s.queue.engines) (htime : t.queue.time = s.queue.time)
    (huser : t.user = s.user) (hcalls : t.calls = s.calls) :
    DispatchRun advanceTime now t s' := by
  cases h with
  | stop _ _ hdue hp ht hu hc =>
    refine DispatchRun.stop t s' ?_ (hp.trans hperm.symm) (ht.trans htime.symm)
      (hu.trans huser.symm) (hc.trans hcalls.symm)
    intro e he
    rw [htime]
    exact hdue e (hperm.subset he)
  | dispatch _ mid _ e passed hmem hmin hlt hpassed hptime hu hc hengines hmtime hrun =>
    refine DispatchRun.dispatch t mid s' e passed (hperm.symm.subset hmem) ?_ ?_ ?_ ?_ ?_ ?_
      ?_ ?_ hrun
    · intro x hx
      rw [htime]
      exact hmin x (hperm.subset hx)
    · rw [htime]; exact hlt
    · exact hpassed.trans (hperm.erase e).symm
    · rw [htime]; exact hptime
    · rw [htime, huser]; exact hu
    · rw [htime, hcalls]; exact hc
    · rw [htime, huser]
      refine hengines.trans ?_
      split
      · exact List.Perm.append_right _ (hperm.erase e).symm
      · exact (hperm.erase e).symm
    · rw [htime, huser]; exact hmtime

theorem tickLoop_terminates {σ : Type} (advanceTime : AdvanceTime σ)
    (eps : ℚ) (heps : 0 < eps)
    (hqueue : ∀ st q e time dt, (advanceTime st q e time dt).2.1 = q)
    (hadv : ∀ st q e time dt t,
      (advanceTime st q e time dt).2.2 = some t → t ≠ 0 → time + eps ≤ t)
    (now : ℚ) :
    ∀ (fuel : ℕ) (s : TickState σ),
      s.queue.engines.Pairwise (fun a b => s.queue.time a ≤ s.queue.time b) →
      queuePotential (now + lookahead) eps s.queue < fuel →
      ∃ s', tickLoop advanceTime now fuel s.queue.engines.head? s = some s' ∧
        (∀ e ∈ s'.queue.engines, now + lookahead ≤ s'.queue.time e) ∧
        DispatchRun advanceTime now s s' ∧
        ∃ new, s'.calls = s.calls ++ new ∧
          (∀ c ∈ new, c.1 ∈ s.queue.engines ∧ c.2.1 < now + lookahead ∧
            c.2.2 = c.2.1 - now) ∧
          (∀ e, s.queue.engines.head? = some e → s.queue.time e < now + lookahead →
            new.head? = some (e, s.queue.time e, s.queue.time e - now)) := by
  intro fuel
  induction fuel with
  | zero => intro s _ h; omega
  | succ fuel ih =>
    intro s hsorted hpot
    have hcases : s.queue.engines = [] ∨ ∃ e rest, s.queue.engines = e :: rest := by
      cases s.queue.engines with
      | nil => exact Or.inl rfl
      | cons e rest => exact Or.inr ⟨e, rest, rfl⟩
    rcases hcases with hq | ⟨e, rest, hq⟩
    · have hdue : ∀ e ∈ s.queue.engines, now + lookahead ≤ s.queue.time e := by simp [hq]
      have hhead : s.queue.engines.head? = none := by rw [hq]; rfl
      rw [hhead]
      exact ⟨s, rfl, hdue, DispatchRun.stop s s hdue (List.Perm.refl _) rfl rfl rfl,
        [], by simp, by simp, by simp⟩
    · have hmin : ∀ x ∈ s.queue.engines, s.queue.time e ≤ s.queue.time x := by
        intro x hx
        rw [hq] at hx hsorted
        rcases List.mem_cons.1 hx with rfl | hx
        · exact le_refl _
        · exact (List.pairwise_cons.1 hsorted).1 x hx
      have hhead : s.queue.engines.head? = some e := by rw [hq]; rfl
      rw [hhead, tickLoop_some]
      by_cases hlt : s.queue.time e < now + lookahead
      · rw [if_pos hlt]
        have hres : (advanceResult advanceTime now s e).2.1 = s.queue.deleteHead :=
          hqueue _ _ _ _ _
        have hnext : ∀ t, (advanceResult advanceTime now s e).2.2 = some t → t ≠ 0 →
            s.queue.time e + eps ≤ t := hadv _ _ _ _ _
        have hdec := queuePotential_requeue_lt heps s.queue e rest hq hlt _ hnext
        have hsub := requeue_engines_subset s.queue e rest hq
          (advanceResult advanceTime now s e).2.2
        have hmid_engines : (nextState advanceTime now s e).queue.engines.Perm
            (requeue s.queue.deleteHead e (advanceResult advanceTime now s e).2.2).engines := by
          simp only [nextState, hres]
          exact arraySort_perm _ _
        have hmid_time : (nextState advanceTime now s e).queue.time =
            (requeue s.queue.deleteHead e (advanceResult advanceTime now s e).2.2).time := by
          simp only [nextState, hres]
          rfl
        have hmid_pot : queuePotential (now + lookahead) eps
            (nextState advanceTime now s e).queue < fuel := by
          have : queuePotential (now + lookahead) eps (nextState advanceTime now s e).queue =
              queuePotential (now + lookahead) eps
                (requeue s.queue.deleteHead e (advanceResult advanceTime now s e).2.2) := by
            simp only [nextState, hres]
            exact queuePotential_head _ _ _
          omega
        obtain ⟨s', hrun, hfinal, hspec, new, hcalls, hnew, _⟩ :=
          ih (nextState advanceTime now s e) (arraySort_sorted _ _) hmid_pot
        have herase : s.queue.engines.erase e = s.queue.deleteHead.engines := by
          simp [DumbPriorityQueue.deleteHead, hq]
        refine ⟨s', hrun, hfinal, ?_, (e, s.queue.time e, s.queue.time e - now) :: new,
          ?_, ?_, ?_⟩
        · refine DispatchRun.dispatch s (nextState advanceTime now s e) s' e
            s.queue.deleteHead (by rw [hq]; exact List.mem_cons_self _ _) hmin hlt
            (by rw [herase]) rfl rfl rfl ?_ ?_ hspec
          · refine hmid_engines.trans ?_
            rw [requeue_deleteHead_engines s.queue e rest hq]
            exact List.Perm.refl _
          · rw [hmid_time, requeue_deleteHead_time]
            rfl
        · rw [hcalls]; simp [nextState]
        · intro c hc
          rcases List.mem_cons.1 hc with rfl | hc
          · exact ⟨by rw [hq]; exact List.mem_cons_self _ _, hlt, rfl⟩
          · obtain ⟨h1, h2, h3⟩ := hnew c hc
            exact ⟨hsub _ (hmid_engines.subset h1), h2, h3⟩
        · intro x hx _
          simp only [Option.some.injEq] at hx
          subst hx
          rfl
      · rw [if_neg hlt]
        have hdue : ∀ x ∈ s.queue.engines, now + lookahead ≤ s.queue.time x := by
          intro x hx
          linarith [hmin x hx, not_lt.1 hlt]
        refine ⟨s, rfl, hdue, DispatchRun.stop s s hdue (List.Perm.refl _) rfl rfl rfl,
          [], by simp, by simp, ?_⟩
        intro x hx hx2
        simp only [Option.some.injEq] at hx
        subst hx
        exact absurd hx2 hlt

theorem tickLoop_selfAdd_none :
    ∀ (fuel : ℕ) (s : TickState Unit), s.queue.engines = [0] → s.queue.time 0 = 0 →
      tickLoop selfAddAdvanceTime 0 fuel (some 0) s = none := by
  intro fuel
  induction fuel with
  | zero => intro s _ _; rfl
  | succ fuel ih =>
    intro s hq ht
    rw [tickLoop_some]
    have hlt : s.queue.time 0 < 0 + lookahead := by
      rw [ht]; norm_num [lookahead]
    rw [if_pos hlt]
    have hengines : (nextState selfAddAdvanceTime 0 s 0).queue.engines = [0] := by
      simp [nextState, advanceResult, selfAddAdvanceTime, requeue, truthy,
        DumbPriorityQueue.head, DumbPriorityQueue.add, DumbPriorityQueue.deleteHead, hq,
        arraySort, sortInsert]
    have htime : (nextState selfAddAdvanceTime 0 s 0).queue.time 0 = 0 := by
      simp [nextState, advanceResult, selfAddAdvanceTime, requeue, truthy,
        DumbPriorityQueue.head, DumbPriorityQueue.add, DumbPriorityQueue.deleteHead, ht]
    rw [hengines]
    exact ih _ hengines htime

/-- C6, as stated, fails: an engine whose `advanceTime` calls
`queue.add(this, time)` and returns `undefined` returns a falsy value at
every call, yet with that engine pending at time `0` and the clock at `0` the
loop of `tick` never ends: it returns with no amount of fuel. -/
theorem tick_self_adding_engine_never_ends :
    (∀ st q e time dt, (selfAddAdvanceTime st q e time dt).2.2 = none) ∧
      ∀ fuel, tick selfAddAdvanceTime 0 fuel
        { queue := DumbPriorityQueue.new.add 0 0, user := (), calls := [] } = none := by
  refine ⟨fun _ _ _ _ _ => rfl, ?_⟩
  intro fuel
  rw [tick_eq]
  have hengines : (DumbPriorityQueue.new.add 0 0).head.1.engines = [0] := by
    simp [DumbPriorityQueue.head, DumbPriorityQueue.add, DumbPriorityQueue.new, arraySort,
      sortInsert]
  rw [hengines]
  exact tickLoop_selfAdd_none fuel _ hengines (by
    simp [DumbPriorityQueue.head, DumbPriorityQueue.add, DumbPriorityQueue.new])

/-- C6, amended: if every `advanceTime` leaves the queue and the engines'
times as it finds them and returns a falsy value or a time at least
`eps > 0` after the time it was called with, then on every queue and clock
value `now` the loop of `tick` ends as soon as the fuel reaches a bound `n`.
At the end every pending engine has a time `≥ now + lookahead` (none being
pending included). The run is a `DispatchRun`: each pass takes a pending
engine of minimal time, that time being below `now + lookahead`, removes one
entry of it, calls it with `(time, time - now)` for its pending `time` and
re-enqueues it at the returned time when that is truthy, and the loop stops
only when nothing pending is due. The calls made are those made before
followed by such calls, of engines pending at entry, the first being that of
the head engine. -/
theorem tick_dispatch_terminates {σ : Type} (advanceTime : AdvanceTime σ)
    (eps : ℚ) (heps : 0 < eps)
    (hqueue : ∀ st q e time dt, (advanceTime st q e time dt).2.1 = q)
    (hadv : ∀ st q e time dt t,
      (advanceTime st q e time dt).2.2 = some t → t ≠ 0 → time + eps ≤ t)
    (now : ℚ) (s : TickState σ) :
    ∃ n, ∀ fuel, n ≤ fuel →
      ∃ s', tick advanceTime now fuel s = some s' ∧
        (∀ e ∈ s'.queue.engines, now + lookahead ≤ s'.queue.time e) ∧
        DispatchRun advanceTime now s s' ∧
        ∃ new, s'.calls = s.calls ++ new ∧
          (∀ c ∈ new, c.1 ∈ s.queue.engines ∧ c.2.1 < now + lookahead ∧
            c.2.2 = c.2.1 - now) ∧
          (∀ e, s.queue.head.2 = some e → s.queue.time e < now + lookahead →
            new.head? = some (e, s.queue.time e, s.queue.time e - now)) := by
  refine ⟨queuePotential (now + lookahead) eps s.queue + 1, ?_⟩
  intro fuel hfuel
  obtain ⟨s', hrun, hfinal, hspec, new, hcalls, hnew, hfirst⟩ :=
    tickLoop_terminates advanceTime eps heps hqueue hadv now fuel
      { s with queue := s.queue.head.1 } (arraySort_sorted _ _)
      (by rw [queuePotential_head]; omega)
  refine ⟨s', ?_, hfinal, ?_, new, hcalls, ?_, hfirst⟩
  · rw [tick_eq]; exact hrun
  · exact dispatchRun_of_perm advanceTime now _ s' s hspec
      (arraySort_perm _ _).symm rfl rfl rfl
  · intro c hc
    obtain ⟨h1, h2, h3⟩ := hnew c hc
    exact ⟨(arraySort_perm _ _).subset h1, h2, h3⟩

/-- Witness for C6: a metronome of period one second pending at time `0`, the
clock reading `0`. -/
theorem tick_dispatch_terminates_witness :
    (0 : ℚ) < 1 ∧
    (∀ st q e time dt, (metroAdvanceTime st q e time dt).2.1 = q) ∧
    (∀ st q e time dt t,
      (metroAdvanceTime st q e time dt).2.2 = some t → t ≠ 0 → time + 1 ≤ t) ∧
    ∃ n, ∀ fuel, n ≤ fuel →
      ∃ s', tick metroAdvanceTime 0 fuel
          { queue := DumbPriorityQueue.new.add 0 0, user := (), calls := [] } = some s' ∧
        (∀ e ∈ s'.queue.engines, 0 + lookahead ≤ s'.queue.time e) ∧
        DispatchRun metroAdvanceTime 0
          { queue := DumbPriorityQueue.new.add 0 0, user := (), calls := [] } s' ∧
        ∃ new, s'.calls = [] ++ new ∧
          (∀ c ∈ new, c.1 ∈ (DumbPriorityQueue.new.add 0 0).engines ∧
            c.2.1 < 0 + lookahead ∧ c.2.2 = c.2.1 - 0) ∧
          (∀ e, (DumbPriorityQueue.new.add 0 0).head.2 = some e →
            (DumbPriorityQueue.new.add 0 0).time e < 0 + lookahead →
            new.head? = some (e, (DumbPriorityQueue.new.add 0 0).time e,
              (DumbPriorityQueue.new.add 0 0).time e - 0)) :=
  ⟨by norm_num,
   fun _ _ _ _ _ => rfl,
   fun _ _ _ _ _ t h _ => by
    simp only [metroAdvanceTime, Option.some.injEq] at h; rw [h],
   tick_dispatch_terminates metroAdvanceTime 1 (by norm_num)
    (fun _ _ _ _ _ => rfl)
    (fun _ _ _ _ _ t h _ => by
      simp only [metroAdvanceTime, Option.some.injEq] at h; rw [h])
    0 { queue := DumbPriorityQueue.new.add 0 0, user := (), calls := [] }⟩

/-! ## Zero-crossing rate -/

theorem foldl_zeroCrossingStep (suf : List ℚ) :
    ∀ (pre : List ℚ) (st : ℕ × Bool),
      (List.range' pre.length suf.length).foldl (zeroCrossingStep (pre ++ suf)) st =
        countFrom st suf := by
  induction suf with
  | nil => intro pre st; rfl
  | cons x r ih =>
    intro pre st
    have hget : (pre ++ x :: r).get? pre.length = some x := by
      simp only [List.get?_eq_getElem?]
      rw [List.getElem?_append_right (le_refl _)]
      simp
    have hih := ih (pre ++ [x])
    simp only [List.length_append, List.length_singleton, List.append_assoc,
      List.singleton_append] at hih
    simp only [List.length_cons, List.range'_succ, List.foldl_cons, countFrom]
    rw [hih]
    simp only [zeroCrossingStep, hget, ltZero, gtZero, countFrom]

theorem blockZeroCrossings_cons (x : ℚ) (rest : List ℚ) :
    blockZeroCrossings (x :: rest) (rest.length + 1) =
      (countFrom (0, decide (0 < x)) rest).1 := by
  have h := foldl_zeroCrossingStep rest [x] (0, decide (0 < x))
  simp only [List.length_singleton, List.singleton_append] at h
  simp only [blockZeroCrossings, Nat.add_sub_cancel, List.get?_cons_zero, gtZero, h]


theorem signChanges_zero_cons (l : List ℚ) : signChanges (0 :: l) = signChanges l := by
  simp [signChanges]

theorem signChanges_cons_zero (prev : ℚ) (l : List ℚ) :
    signChanges (prev :: 0 :: l) = signChanges (prev :: l) := by
  by_cases h : prev = 0
  · subst h; simp [signChanges]
  · simp [signChanges, h]

theorem signChanges_cons_cons (prev x : ℚ) (l : List ℚ) (hp : prev ≠ 0) (hx : x ≠ 0) :
    signChanges (prev :: x :: l) =
      (if (prev < 0 ∧ 0 < x) ∨ (0 < prev ∧ x < 0) then 1 else 0) + signChanges (x :: l) := by
  by_cases hc : (prev < 0 ∧ 0 < x) ∨ (0 < prev ∧ x < 0)
  · rw [if_pos hc]
    simp [signChanges, List.filter_cons, hp, hx, hc]
    omega
  · rw [if_neg hc]
    simp [signChanges, List.filter_cons, hp, hx, hc]

theorem countFrom_cons (st : ℕ × Bool) (x : ℚ) (r : List ℚ) :
    countFrom st (x :: r) =
      countFrom (if decide (x < 0) && st.2 then (st.1 + 1, false)
        else if decide (0 < x) && !st.2 then (st.1 + 1, true) else st) r := by
  rfl

theorem countFrom_fst_add (l : List ℚ) :
    ∀ (c : ℕ) (wp : Bool), (countFrom (c, wp) l).1 = c + (countFrom (0, wp) l).1 := by
  induction l with
  | nil => intro c wp; simp [countFrom]
  | cons x r ih =>
    intro c wp
    rw [countFrom_cons, countFrom_cons]
    by_cases h1 : (decide (x < 0) && wp) = true
    · simp only [h1, if_true]
      rw [ih (c + 1) false, ih (0 + 1) false]
      omega
    · by_cases h2 : (decide (0 < x) && !wp) = true
      · have h1' : (decide (x < 0) && wp) = false := by simpa using h1
        simp only [h1', h2, if_true, Bool.false_eq_true, if_false]
        rw [ih (c + 1) true, ih (0 + 1) true]
        omega
      · have h1' : (decide (x < 0) && wp) = false := by simpa using h1
        have h2' : (decide (0 < x) && !wp) = false := by simpa using h2
        simp only [h1', h2', Bool.false_eq_true, if_false]
        exact ih c wp

theorem countFrom_eq_signChanges (l : List ℚ) :
    ∀ prev : ℚ, prev ≠ 0 → (countFrom (0, decide (0 < prev)) l).1 = signChanges (prev :: l) := by
  induction l with
  | nil => intro prev hp; simp [countFrom, signChanges, hp]
  | cons x r ih =>
    intro prev hp
    by_cases hx : x = 0
    · subst hx
      rw [signChanges_cons_zero, ← ih prev hp, countFrom_cons]
      simp
    · rw [signChanges_cons_cons prev x r hp hx, ← ih x hx, countFrom_cons]
      rcases lt_or_gt_of_ne hp with hp' | hp' <;> rcases lt_or_gt_of_ne hx with hx' | hx'
      · have h1 : ¬ 0 < prev := not_lt.2 (le_of_lt hp')
        have h2 : ¬ 0 < x := not_lt.2 (le_of_lt hx')
        simp [h1, h2, hx', hp']
      · have h1 : ¬ 0 < prev := not_lt.2 (le_of_lt hp')
        have h2 : ¬ x < 0 := not_lt.2 (le_of_lt hx')
        simp only [h1, h2, hx', hp', decide_True, decide_False, Bool.false_and, Bool.not_false,
          Bool.and_self, if_true, if_false, true_and, and_self, true_or, zero_add,
          Bool.false_eq_true]
        rw [countFrom_fst_add r 1 true]
      · have h1 : ¬ prev < 0 := not_lt.2 (le_of_lt hp')
        have h2 : ¬ 0 < x := not_lt.2 (le_of_lt hx')
        simp only [h1, h2, hx', hp', decide_True, decide_False, Bool.true_and, Bool.and_self,
          if_true, and_self, or_true, zero_add]
        rw [countFrom_fst_add r 1 false]
      · have h1 : ¬ prev < 0 := not_lt.2 (le_of_lt hp')
        have h2 : ¬ x < 0 := not_lt.2 (le_of_lt hx')
        simp [h1, h2, hx', hp']

theorem countFrom_false_eq (l : List ℚ) :
    (countFrom (0, false) l).1 =
      signChanges l +
        (if gtZero (l.filter (fun x => decide (x ≠ 0))).head? then 1 else 0) := by
  induction l with
  | nil => simp [countFrom, signChanges, gtZero]
  | cons x r ih =>
    rw [countFrom_cons]
    rcases lt_trichotomy x 0 with hx | hx | hx
    · have h2 : ¬ 0 < x := not_lt.2 (le_of_lt hx)
      have hne : x ≠ 0 := ne_of_lt hx
      have := countFrom_eq_signChanges r x hne
      simp only [h2, decide_False] at this
      simp [h2, hne, gtZero, this]
    · subst hx
      simp only [lt_self_iff_false, decide_False, Bool.false_and, if_false, Bool.false_eq_true]
      rw [ih, signChanges_zero_cons]
      simp
    · have h2 : ¬ x < 0 := not_lt.2 (le_of_lt hx)
      have hne : x ≠ 0 := ne_of_gt hx
      have := countFrom_eq_signChanges r x hne
      simp only [hx, decide_True] at this
      simp only [h2, hx, decide_True, decide_False, Bool.false_and, Bool.not_false,
        Bool.and_self, if_true, if_false, zero_add, Bool.false_eq_true]
      rw [countFrom_fst_add r 1 true, this]
      simp [hne, gtZero, hx]
      omega


/-- On a block of `blockSize` samples the counter of `zeroCrossing` is the number
of sign changes between consecutive non-zero samples, plus one when the block
begins with `0` and its first non-zero sample is positive. -/
theorem blockZeroCrossings_eq (block : List ℚ) :
    blockZeroCrossings block block.length =
      signChanges block + (if zeroThenPositive block then 1 else 0) := by
  cases block with
  | nil => simp [blockZeroCrossings, signChanges, zeroThenPositive, gtZero]
  | cons x rest =>
    rw [List.length_cons, blockZeroCrossings_cons]
    by_cases hx : x = 0
    · subst hx
      simp only [lt_self_iff_false, decide_False]
      rw [countFrom_false_eq, signChanges_zero_cons]
      simp [zeroThenPositive]
    · rw [countFrom_eq_signChanges rest x hx]
      simp [zeroThenPositive, hx]

theorem slice_length (arr : List ℚ) (start B : ℕ) (h : start + B ≤ arr.length) :
    (slice arr start (start + B)).length = B := by
  simp only [slice, List.length_drop, List.length_take]
  omega

theorem blockZcr_eq (channelData : List ℚ) (sampleRate : ℚ) (B start : ℕ) (hB : 2 ≤ B)
    (h : start + B ≤ channelData.length) :
    blockZcr channelData sampleRate B start =
      JsNum.num (((signChanges (slice channelData start (start + B)) +
        (if zeroThenPositive (slice channelData start (start + B)) then 1 else 0) : ℕ) : ℚ) /
          ((B : ℚ) - 1) * sampleRate) := by
  have hlen := slice_length channelData start B h
  have hcnt := blockZeroCrossings_eq (slice channelData start (start + B))
  rw [hlen] at hcnt
  have hne : ((B : ℚ) - 1) ≠ 0 := by
    have : (2 : ℚ) ≤ (B : ℚ) := by exact_mod_cast hB
    linarith
  simp only [blockZcr, hcnt, jsDiv, hne, if_false, jsMul]

theorem zeroCrossingLoop_eq (channelData : List ℚ) (sampleRate : ℚ) (B H : ℕ)
    (hB : 1 ≤ B) (hH : 1 ≤ H) :
    ∀ (fuel k : ℕ) (zcr : List JsNum), channelData.length - k * H < fuel →
      zeroCrossingLoop channelData sampleRate B H fuel (k * H) zcr =
        some (zcr ++ (List.range' k (blockCount channelData.length B H - k)).map
          (fun i => blockZcr channelData sampleRate B (i * H))) := by
  intro fuel
  induction fuel with
  | zero => intro k zcr h; omega
  | succ fuel ih =>
    intro k zcr h
    have hstep : k * H + H = (k + 1) * H := by ring
    unfold zeroCrossingLoop
    by_cases hlt : k * H < channelData.length
    · have hfuel : channelData.length - (k + 1) * H < fuel := by
        rw [← hstep]; omega
      rw [if_pos hlt]
      by_cases hfit : k * H + B ≤ channelData.length
      · simp only [hfit, if_true]
        rw [hstep, ih (k + 1) _ hfuel]
        have hk : k < blockCount channelData.length B H := lt_blockCount_of_fits hH hfit
        have hsplit : blockCount channelData.length B H - k =
            (blockCount channelData.length B H - (k + 1)) + 1 := by omega
        rw [hsplit, List.range'_succ]
        simp
      · simp only [hfit, if_false]
        rw [hstep, ih (k + 1) _ hfuel]
        have hk : blockCount channelData.length B H ≤ k :=
          blockCount_le_of_not_fits hH (by omega)
        have e1 : blockCount channelData.length B H - k = 0 := by omega
        have e2 : blockCount channelData.length B H - (k + 1) = 0 := by omega
        rw [e1, e2]
        simp
    · rw [if_neg hlt]
      have hk : blockCount channelData.length B H ≤ k :=
        blockCount_le_of_not_fits hH (by omega)
      have e1 : blockCount channelData.length B H - k = 0 := by omega
      rw [e1]
      simp

/-- For `B ≥ 2`, `H ≥ 1` and fuel above the number of samples, `zeroCrossing`
returns one value per entry of `getTimes`, and the value of block `i` is
`c / (B - 1) * sampleRate` with `c` the number of sign changes between
consecutive non-zero samples of the block, plus one when the block begins
with `0` and its first non-zero sample is positive. -/
theorem zeroCrossing_counts (channelData : List ℚ) (sampleRate : ℚ) (B H : ℕ)
    (hB : 2 ≤ B) (hH : 1 ≤ H) (fuel : ℕ) (hfuel : channelData.length < fuel) :
    ∃ zcr times, zeroCrossing fuel channelData sampleRate B H = some zcr ∧
      getTimes fuel channelData sampleRate B H = some times ∧
      zcr.length = times.length ∧
      ∀ i (h : i < zcr.length), zcr.get ⟨i, h⟩ =
        JsNum.num (((signChanges (slice channelData (i * H) (i * H + B)) +
          (if zeroThenPositive (slice channelData (i * H) (i * H + B)) then 1 else 0) : ℕ) : ℚ)
            / ((B : ℚ) - 1) * sampleRate) := by
  have hz := zeroCrossingLoop_eq channelData sampleRate B H (by omega) hH fuel 0 []
    (by simpa using hfuel)
  have ht := getTimesLoop_eq channelData.length sampleRate B H (by omega) hH fuel 0 []
    (by simpa using hfuel)
  simp only [Nat.zero_mul, Nat.sub_zero, List.nil_append] at hz ht
  rw [← List.range_eq_range'] at hz ht
  refine ⟨_, _, hz, ht, by simp, ?_⟩
  intro i h
  have hi : i < blockCount channelData.length B H := by simpa using h
  have hfit : i * H + B ≤ channelData.length := (lt_blockCount_iff hH).1 hi
  simp only [List.get_eq_getElem, List.getElem_map, List.getElem_range]
  exact blockZcr_eq channelData sampleRate B (i * H) hB hfit

/-- C11: on the samples `[0, 1]` with `B = 2`, `H = 1` and sample rate `44100`
there is one full block (`getTimes` returns one start time) and
`zeroCrossing` returns `44100` for it, that is `c = 1`, although the block
has no negative sample and no sign change between non-zero samples; on
`[0, -1]` it returns `0`. -/
theorem zeroCrossing_leading_zero :
    zeroCrossing 3 [0, 1] 44100 2 1 = some [JsNum.num 44100] ∧
      getTimes 3 [0, 1] 44100 2 1 = some [0] ∧
      signChanges [0, 1] = 0 ∧
      zeroCrossing 3 [0, -1] 44100 2 1 = some [JsNum.num 0] := by
  refine ⟨?_, ?_, ?_, ?_⟩
  · simp [zeroCrossing, zeroCrossingLoop, blockZcr, blockZeroCrossings, slice,
      zeroCrossingStep, gtZero, ltZero, jsDiv, jsMul]
    norm_num
  · simp [getTimes, getTimesLoop]
  · simp [signChanges]
  · simp [zeroCrossing, zeroCrossingLoop, blockZcr, blockZeroCrossings, slice,
      zeroCrossingStep, gtZero, ltZero, jsDiv, jsMul]
    norm_num

/-- An instance of `zeroCrossing_counts`: three samples, blocks of two at every
sample. -/
theorem zeroCrossing_counts_witness :
    ∃ zcr times, zeroCrossing 4 [1, -1, 1] 2 2 1 = some zcr ∧
      getTimes 4 [1, -1, 1] 2 2 1 = some times ∧
      zcr.length = times.length ∧
      ∀ i (h : i < zcr.length), zcr.get ⟨i, h⟩ =
        JsNum.num (((signChanges (slice [1, -1, 1] (i * 1) (i * 1 + 2)) +
          (if zeroThenPositive (slice [1, -1, 1] (i * 1) (i * 1 + 2)) then 1 else 0) : ℕ) : ℚ)
            / (((2 : ℕ) : ℚ) - 1) * 2) :=
  zeroCrossing_counts [1, -1, 1] 2 2 1 (by decide) (by decide) 4 (by decide)

end WebAudio
